import Mathlib

/-!
Shallow embedding of `src/synapse/push/bulk_push_rule_evaluator.py`.

Python dicts are modelled as association lists (`List (κ × ν)`) with
first-match lookup `dget`; `dict.update(o)` becomes `dupdate m o = o ++ m`
(entries of `o` shadow entries of `m` under `dget`); `d[k] = v` becomes
`dinsert`, which keeps keys unique.  External collaborators (the data store,
the homeserver, the event-visibility filter and the per-condition push-rule
evaluator) are parameters gathered in `Env` or passed as functions, exactly
the signatures the source calls.  The cooperative-scheduling model of the
source (external lookups are the only suspension points) is made explicit by
an `nInv` parameter: the number of concurrent `invalidate_all` calls that run
against the cache entry while a refresh is suspended in its external lookups,
applied to the entry before the commit step reads `self.sequence`.
-/

namespace BulkPush

abbrev UserId := String

abbrev EventId := String

/-- Association-list lookup: the model of a Python dict read `m.get(k)`. -/
def dget {κ ν : Type} [DecidableEq κ] : List (κ × ν) → κ → Option ν
  | [], _ => none
  | (k1, v) :: rest, k => if k1 = k then some v else dget rest k

/-- Model of `m[k] = v`: the new binding shadows any old one; keys stay unique. -/
def dinsert {κ ν : Type} [DecidableEq κ] (m : List (κ × ν)) (k : κ) (v : ν) :
    List (κ × ν) :=
  (k, v) :: m.filter (fun p => !(decide (p.1 = k)))

/-- Model of `m.update(o)`: bindings of `o` win over bindings of `m`. -/
def dupdate {κ ν : Type} (m o : List (κ × ν)) : List (κ × ν) := o ++ m

/-- String constant `EventTypes.Member` (the source also writes the literal
at the invite special case). -/
def memberEventType : String := "m.room.member"

/-- String constant `Membership.JOIN`. -/
def membershipJoin : String := "join"

/-- String constant for `event.content["membership"] == "invite"`. -/
def membershipInvite : String := "invite"

/-- The `notify` push action. -/
def notifyAction : String := "notify"

/-- The `dont_notify` push action, removed from a matching rule before use. -/
def dontNotifyAction : String := "dont_notify"

/-- One push-rule condition: the optional stable `_id` used for memoization
and an opaque payload that only the external evaluator inspects. -/
structure Cond where
  id : Option String
  data : String
deriving DecidableEq

/-- One push rule: `enabled` flag (absent key modelled as `none`), an ordered
condition list and an ordered action list. -/
structure Rule where
  enabled : Option Bool
  conditions : List Cond
  actions : List String
deriving DecidableEq

abbrev RuleSet := List Rule

/-- The state-group token a `RulesForRoom` entry holds: either the
`context.state_group` value stored by a commit (`ctx g`, where `g = none`
models Python `None`) or an `object()` sentinel.  Distinct constructors are
never equal, like an `object()` compared with an int. -/
inductive EToken where
  | ctx (g : Option Nat)
  | sentinel (k : Nat)
deriving DecidableEq

/-- The mutable state of one `RulesForRoom` cache entry. -/
structure RulesForRoom where
  memberMap : List (EventId × UserId × String)
  rulesByUser : List (UserId × RuleSet)
  stateGroup : EToken
  sequence : Nat
deriving DecidableEq

/-- A freshly constructed `RulesForRoom`: empty maps, `object()` token,
sequence 0 (its `__init__`). -/
def initRulesForRoom : RulesForRoom :=
  { memberMap := [], rulesByUser := [], stateGroup := .sentinel 0, sequence := 0 }

/-- `RulesForRoom.invalidate_all`: bump the sequence, fresh sentinel token,
clear both maps.  Sentinel freshness is modelled by indexing the sentinel
with the new sequence value, which never repeats along an entry lifetime. -/
def invalidate_all (e : RulesForRoom) : RulesForRoom :=
  { memberMap := [], rulesByUser := [],
    stateGroup := .sentinel (e.sequence + 1), sequence := e.sequence + 1 }

/-- `RulesForRoom.update_cache`: commit the computed merge only when the
sequence captured at the start of the refresh still equals the current one. -/
def update_cache (e : RulesForRoom) (sequence : Nat)
    (members : List (EventId × UserId × String))
    (rules_by_user : List (UserId × RuleSet)) (state_group : Option Nat) :
    RulesForRoom :=
  if sequence = e.sequence then
    { e with
      memberMap := dupdate e.memberMap members,
      rulesByUser := dupdate e.rulesByUser rules_by_user,
      stateGroup := .ctx state_group }
  else e

/-- The external collaborators the source calls, with the store tables they
read behind them: `hs.is_mine_id`, `get_if_app_services_interested_in_user`,
the `room_memberships` table row for an event id, `user_has_pusher` and
`get_if_users_have_pushers` (both reading the same pusher table),
`get_users_with_read_receipts_in_room` for this entry's room,
`bulk_get_push_rules` (per-user value may be absent) and
`get_push_rules_for_user` (total single-user variant). -/
structure Env where
  is_mine_id : UserId → Bool
  appServiceInterested : UserId → Bool
  membershipRow : EventId → Option (UserId × String)
  hasPusher : UserId → Bool
  usersWithReceipts : List UserId
  pushRulesOf : UserId → Option RuleSet
  push_rules_for_user : UserId → RuleSet

/-- The event-resolution context handed to `get_rules`: `state_group` and
`current_state_ids` (a dict from `(event type, state key)` to event id). -/
structure Context where
  state_group : Option Nat
  current_state_ids : List ((String × String) × EventId)

/-- Python truthiness of `context.state_group` (an int or `None`). -/
def sgTruthy : Option Nat → Bool
  | none => false
  | some n => decide (n ≠ 0)

/-- The fast-path test of `get_rules`:
`if state_group and self.state_group == state_group`. -/
def fastPathHit (e : RulesForRoom) (ctx : Context) : Bool :=
  sgTruthy ctx.state_group && decide (e.stateGroup = EToken.ctx ctx.state_group)

/-- One iteration of the `for key, event_id in current_state_ids.iteritems()`
loop of `get_rules`, threading `(ret_rules_by_user, missing_member_event_ids)`. -/
def scanStep (env : Env) (e : RulesForRoom)
    (acc : List (UserId × RuleSet) × List (UserId × EventId))
    (kv : (String × String) × EventId) :
    List (UserId × RuleSet) × List (UserId × EventId) :=
  match dget e.memberMap kv.2 with
  | some (user_id, state) =>
      if state = membershipJoin then
        match dget e.rulesByUser user_id with
        | some rules => if rules ≠ [] then (dinsert acc.1 user_id rules, acc.2) else acc
        | none => acc
      else acc
  | none =>
      if kv.1.1 ≠ memberEventType then acc
      else if ¬ env.is_mine_id kv.1.2 then acc
      else if env.appServiceInterested kv.1.2 then acc
      else (acc.1, dinsert acc.2 kv.1.2 kv.2)

/-- The whole partitioning loop of `get_rules` over `current_state_ids`. -/
def scanState (env : Env) (e : RulesForRoom) (ctx : Context) :
    List (UserId × RuleSet) × List (UserId × EventId) :=
  ctx.current_state_ids.foldl (scanStep env e) ([], [])

/-- The batched `room_memberships` select of
`_get_rules_for_member_event_ids`: one row per queried event id present in
the table, keyed into the `members` dict. -/
def resolved_members (env : Env) (event_ids : List EventId) :
    List (EventId × UserId × String) :=
  event_ids.filterMap (fun eid => (env.membershipRow eid).map (fun um => (eid, um)))

/-- `interested_in_user_ids`: the users of the batch-resolved member rows. -/
def interested_user_ids_of (members : List (EventId × UserId × String)) :
    List UserId :=
  (members.map (fun m => m.2.1)).dedup

/-- The `user_ids` set of `_get_rules_for_member_event_ids`: resolved users
whose pusher lookup came back true, plus every read-receipt user that is
among `interested_in_user_ids`. -/
def fetch_user_ids (env : Env) (members : List (EventId × UserId × String)) :
    List UserId :=
  let interested := interested_user_ids_of members
  let if_users_with_pushers := interested.map (fun u => (u, env.hasPusher u))
  let with_pushers := (if_users_with_pushers.filter (fun p => p.2)).map Prod.fst
  (with_pushers ++ env.usersWithReceipts.filter (fun u => decide (u ∈ interested))).dedup

/-- `RulesForRoom._get_rules_for_member_event_ids`: capture the sequence, run
the four suspending store lookups, commit through `update_cache` against the
entry as it stands after `nInv` interleaved `invalidate_all` calls, and
return the computed mapping regardless.  Result: (entry after the commit
step, the computed user-to-ruleset mapping). -/
def get_rules_for_member_event_ids (env : Env) (e : RulesForRoom)
    (member_event_ids : List (UserId × EventId)) (state_group : Option Nat)
    (nInv : Nat) : RulesForRoom × List (UserId × RuleSet) :=
  let sequence := e.sequence
  let members := resolved_members env (member_event_ids.map Prod.snd)
  let user_ids := fetch_user_ids env members
  let rules_by_user :=
    user_ids.filterMap (fun u => (env.pushRulesOf u).map (fun r => (u, r)))
  let eC := invalidate_all^[nInv] e
  (update_cache eC sequence members rules_by_user state_group, rules_by_user)

/-- What one `RulesForRoom.get_rules` call produces: the entry state it
leaves behind, the mapping returned to the caller, and how many suspending
(yielded) store lookups it performed. -/
structure RefreshResult where
  entry : RulesForRoom
  rules : List (UserId × RuleSet)
  yieldedLookups : Nat

/-- `RulesForRoom.get_rules`: fast path on a truthy, equal state group;
otherwise partition the current state ids and, only when some member event
ids are missing, resolve them through the suspending store lookups. -/
def get_rules (env : Env) (e : RulesForRoom) (ctx : Context) (nInv : Nat) :
    RefreshResult :=
  if fastPathHit e ctx then
    ⟨e, e.rulesByUser, 0⟩
  else
    let s := scanState env e ctx
    if s.2 ≠ [] then
      let r := get_rules_for_member_event_ids env e s.2 ctx.state_group nInv
      ⟨r.1, dupdate s.1 r.2, 4⟩
    else
      ⟨e, s.1, 0⟩

/-- A room event as the evaluator reads it: `state_key` is `""` when absent,
`content_membership` and `content_displayname` model `event.content` reads. -/
structure Event where
  event_id : EventId
  room_id : String
  type : String
  sender : UserId
  state_key : String
  content_membership : Option String
  content_displayname : Option String
deriving DecidableEq

/-- `BulkPushRuleEvaluator._get_rules_for_event`: refresh the room cache,
then the invite special case, which extends only a copied local mapping
(`dict(rules_by_user)` then one insertion) and never touches the entry. -/
def get_rules_for_event (env : Env) (e : RulesForRoom) (event : Event)
    (ctx : Context) (nInv : Nat) : RulesForRoom × List (UserId × RuleSet) :=
  let r := get_rules env e ctx nInv
  if event.type = memberEventType ∧ event.content_membership = some membershipInvite then
    let invited := event.state_key
    if invited ≠ "" ∧ env.is_mine_id invited then
      if env.hasPusher invited then
        (r.entry, dinsert r.rules invited (env.push_rules_for_user invited))
      else (r.entry, r.rules)
    else (r.entry, r.rules)
  else (r.entry, r.rules)

/-- A room-member profile as `get_joined_users_from_context` returns one. -/
structure Profile where
  display_name : Option String
deriving DecidableEq

/-- Python truthiness of a display-name value. -/
def strTruthy : Option String → Bool
  | none => false
  | some s => decide (s ≠ "")

/-- The display-name resolution of `action_for_event_by_user`: the room
profile name when truthy, else the name proposed by a membership event
targeting this user. -/
def resolveDisplayName (room_members : UserId → Option Profile) (event : Event)
    (uid : UserId) : Option String :=
  let dn0 : Option String :=
    match room_members uid with
    | some p => p.display_name
    | none => none
  if strTruthy dn0 then dn0
  else if event.type = memberEventType ∧ event.state_key = uid then
    event.content_displayname
  else dn0

/-- Truthiness of `cond.get("_id", None)`: only a nonempty id is memoized. -/
def condMemoId (c : Cond) : Option String :=
  match c.id with
  | some s => if s ≠ "" then some s else none
  | none => none

/-- The module function `_condition_checker`, threading the per-event memo
cache: a hit at `false` short-circuits, a hit at `true` skips the evaluator,
a miss evaluates and stores under the id. -/
def condition_checker (evMatches : Cond → UserId → Option String → Bool)
    (conditions : List Cond) (uid : UserId) (display_name : Option String)
    (cache : List (String × Bool)) : Bool × List (String × Bool) :=
  match conditions with
  | [] => (true, cache)
  | cond :: rest =>
    match condMemoId cond with
    | some i =>
      match dget cache i with
      | some false => (false, cache)
      | some true => condition_checker evMatches rest uid display_name cache
      | none =>
        let res := evMatches cond uid display_name
        let cache2 := dinsert cache i res
        if res then condition_checker evMatches rest uid display_name cache2
        else (false, cache2)
    | none =>
      let res := evMatches cond uid display_name
      if res then condition_checker evMatches rest uid display_name cache
      else (false, cache)

/-- The `for rule in rules` loop of `action_for_event_by_user` for one user:
skip explicitly disabled rules, stop at the first rule whose full condition
chain evMatches and turn its actions (with `dont_notify` removed) into this
user's result when they are nonempty and contain `notify`. -/
def run_user_rules (evMatches : Cond → UserId → Option String → Bool)
    (rules : List Rule) (uid : UserId) (display_name : Option String)
    (cache : List (String × Bool)) :
    Option (List String) × List (String × Bool) :=
  match rules with
  | [] => (none, cache)
  | rule :: rest =>
    if rule.enabled = some false then
      run_user_rules evMatches rest uid display_name cache
    else
      let c := condition_checker evMatches rule.conditions uid display_name cache
      if c.1 then
        let actions := rule.actions.filter (fun a => decide (a ≠ dontNotifyAction))
        (if actions ≠ [] ∧ actions.contains notifyAction then some actions else none,
         c.2)
      else run_user_rules evMatches rest uid display_name c.2

/-- The `for uid, rules in rules_by_user.iteritems()` loop of
`action_for_event_by_user`: users the visibility filter hid and the sender of
the (sole, visible) event are skipped; the memo cache is threaded through.
`visible` models the external `filter_events_for_clients_context` result,
which keeps for each user a sublist of the single passed event. -/
def action_loop (evMatches : Cond → UserId → Option String → Bool)
    (room_members : UserId → Option Profile) (visible : UserId → Bool)
    (event : Event) (entries : List (UserId × RuleSet))
    (acc : List (UserId × List String)) (cache : List (String × Bool)) :
    List (UserId × List String) :=
  match entries with
  | [] => acc
  | (uid, rules) :: rest =>
    let display_name := resolveDisplayName room_members event uid
    if ¬ visible uid then
      action_loop evMatches room_members visible event rest acc cache
    else if event.sender = uid then
      action_loop evMatches room_members visible event rest acc cache
    else
      let r := run_user_rules evMatches rules uid display_name cache
      let acc2 :=
        match r.1 with
        | some actions => dinsert acc uid actions
        | none => acc
      action_loop evMatches room_members visible event rest acc2 r.2

/-- `BulkPushRuleEvaluator.action_for_event_by_user`: refresh (with the
invite special case) and run the per-user evaluation loop with an empty
condition memo and an empty result accumulator. -/
def action_for_event_by_user (env : Env)
    (evMatches : Cond → UserId → Option String → Bool)
    (room_members : UserId → Option Profile) (visible : UserId → Bool)
    (e : RulesForRoom) (event : Event) (ctx : Context) (nInv : Nat) :
    RulesForRoom × List (UserId × List String) :=
  let gr := get_rules_for_event env e event ctx nInv
  (gr.1, action_loop evMatches room_members visible event gr.2 [] [])

/-- One operation applied to a `RulesForRoom` entry over its lifetime: an
`invalidate_all`, or a `get_rules` call with `nInv` interleaved
invalidations. -/
inductive CacheOp where
  | inv : CacheOp
  | refresh : Env → Context → Nat → CacheOp

/-- Apply one lifetime operation to the entry. -/
def applyOp (e : RulesForRoom) : CacheOp → RulesForRoom
  | .inv => invalidate_all e
  | .refresh env ctx n => (get_rules env e ctx n).entry

/-- The entry reached from a fresh `RulesForRoom` by a list of operations. -/
def runOps (ops : List CacheOp) : RulesForRoom :=
  ops.foldl applyOp initRulesForRoom

/-- The sentinel index of a token (0 for a stored context token): used to
state that an entry never holds a sentinel younger than its sequence. -/
def tokIdx : EToken → Nat
  | .ctx _ => 0
  | .sentinel k => k

/-! Concrete instances used by the closed scenario theorems below. -/

/-- A rule with no conditions whose single action is `notify`. -/
def ruleNotify : Rule := { enabled := none, conditions := [], actions := [notifyAction] }

/-- A trivial environment: every user local, no app services, empty store. -/
def env0 : Env :=
  { is_mine_id := fun _ => true
    appServiceInterested := fun _ => false
    membershipRow := fun _ => none
    hasPusher := fun _ => false
    usersWithReceipts := []
    pushRulesOf := fun _ => none
    push_rules_for_user := fun _ => [] }

/-- Environment for the stale-cached-user scenario: one joined member
`@v:hs` (membership event `e1`) with a pusher and one rule. -/
def env2 : Env :=
  { is_mine_id := fun _ => true
    appServiceInterested := fun _ => false
    membershipRow := fun eid => if eid = "e1" then some ("@v:hs", "join") else none
    hasPusher := fun u => decide (u = "@v:hs")
    usersWithReceipts := []
    pushRulesOf := fun u => if u = "@v:hs" then some [ruleNotify] else none
    push_rules_for_user := fun _ => [] }

/-- A cache entry that still carries rules for a user `@w:hs` who no longer
appears anywhere in the current state. -/
def e2stale : RulesForRoom :=
  { memberMap := [], rulesByUser := [("@w:hs", [ruleNotify])],
    stateGroup := .sentinel 0, sequence := 0 }

/-- Context whose only state entry is the membership event of `@v:hs`. -/
def ctx2 : Context := ⟨some 1, [(("m.room.member", "@v:hs"), "e1")]⟩

/-- Environment for the receipt-without-pusher scenario: one joined member
`@r:hs` (membership event `e1`) with a read receipt, rules, and NO pusher. -/
def env4 : Env :=
  { is_mine_id := fun _ => true
    appServiceInterested := fun _ => false
    membershipRow := fun eid => if eid = "e1" then some ("@r:hs", "join") else none
    hasPusher := fun _ => false
    usersWithReceipts := ["@r:hs"]
    pushRulesOf := fun u => if u = "@r:hs" then some [ruleNotify] else none
    push_rules_for_user := fun _ => [] }

/-- A condition the scenario evaluator rejects. -/
def condNo : Cond := { id := none, data := "no" }

/-- A condition the scenario evaluator accepts. -/
def condYes : Cond := { id := none, data := "yes" }

/-- Scenario evaluator: a condition matches iff its payload is `yes`. -/
def evScenario : Cond → UserId → Option String → Bool :=
  fun c _ _ => decide (c.data = "yes")

/-- Scenario rule R1: non-matching, actions `[notify]`. -/
def ruleR1 : Rule := { enabled := none, conditions := [condNo], actions := [notifyAction] }

/-- Scenario rule R2: matching, actions `[notify]`. -/
def ruleR2 : Rule := { enabled := none, conditions := [condYes], actions := [notifyAction] }

/-- Scenario rule R3: matching, actions `[highlight]`. -/
def ruleR3 : Rule := { enabled := none, conditions := [], actions := ["highlight"] }

/-- Cache entry already valid for state group 5, holding the rule list
`[R1, R2, R3]` for `@bob:hs`. -/
def e6 : RulesForRoom :=
  { memberMap := [], rulesByUser := [("@bob:hs", [ruleR1, ruleR2, ruleR3])],
    stateGroup := .ctx (some 5), sequence := 0 }

/-- Context matching the state group cached by `e6`. -/
def ctx6 : Context := ⟨some 5, []⟩

/-- A plain message event sent by `@alice:hs`. -/
def event6 : Event :=
  { event_id := "ev6", room_id := "r6", type := "m.room.message",
    sender := "@alice:hs", state_key := "", content_membership := none,
    content_displayname := none }

/-- Environment for the invite scenario: local user `@d:hs` has a pusher and
a single-user ruleset, but appears nowhere in the room state or store. -/
def env8 : Env :=
  { is_mine_id := fun u => decide (u = "@d:hs")
    appServiceInterested := fun _ => false
    membershipRow := fun _ => none
    hasPusher := fun u => decide (u = "@d:hs")
    usersWithReceipts := []
    pushRulesOf := fun _ => none
    push_rules_for_user := fun u => if u = "@d:hs" then [ruleNotify] else [] }

/-- The invite membership event from `@a:hs` to `@d:hs`. -/
def event8 : Event :=
  { event_id := "ev8", room_id := "r8", type := "m.room.member",
    sender := "@a:hs", state_key := "@d:hs",
    content_membership := some "invite", content_displayname := none }

/-- A context with no state entries and a real state group. -/
def ctx8 : Context := ⟨some 1, []⟩

/-- Environment for the left-user scenario: the membership event `em1` of
local user `@lu:hs` records membership `leave`, and the user has a pusher
and one always-matching notify rule. -/
def env10 : Env :=
  { is_mine_id := fun u => decide (u = "@lu:hs")
    appServiceInterested := fun _ => false
    membershipRow := fun eid => if eid = "em1" then some ("@lu:hs", "leave") else none
    hasPusher := fun u => decide (u = "@lu:hs")
    usersWithReceipts := []
    pushRulesOf := fun u => if u = "@lu:hs" then some [ruleNotify] else none
    push_rules_for_user := fun _ => [] }

/-- Context whose only state entry is the leave-membership event of `@lu:hs`. -/
def ctx10 : Context := ⟨some 7, [(("m.room.member", "@lu:hs"), "em1")]⟩

/-- A plain message event from `@a:hs` in the left-user scenario room. -/
def event10 : Event :=
  { event_id := "ev10", room_id := "r10", type := "m.room.message",
    sender := "@a:hs", state_key := "", content_membership := none,
    content_displayname := none }

/-! Basic facts about the dict model. -/

/-- Left-biased choice on `Option`, the lookup behaviour of `dupdate`. -/
def oor {α : Type} : Option α → Option α → Option α
  | some v, _ => some v
  | none, b => b

theorem dget_dupdate {κ ν : Type} [DecidableEq κ] (m o : List (κ × ν)) (k : κ) :
    dget (dupdate m o) k = oor (dget o k) (dget m k) := by
  induction o with
  | nil => simp [dupdate, dget, oor]
  | cons p rest ih =>
    obtain ⟨k1, v⟩ := p
    by_cases h : k1 = k
    · simp [dupdate, dget, h, oor] at ih ⊢
    · simp [dupdate, dget, h, oor] at ih ⊢
      exact ih

theorem dget_filter_ne {κ ν : Type} [DecidableEq κ] (m : List (κ × ν)) (k k2 : κ)
    (h : ¬ k = k2) :
    dget (m.filter (fun p => !(decide (p.1 = k)))) k2 = dget m k2 := by
  induction m with
  | nil => rfl
  | cons p rest ih =>
    obtain ⟨k1, v⟩ := p
    by_cases h1 : k1 = k
    · have h2 : ¬ k1 = k2 := by rw [h1]; exact h
      simp [List.filter_cons, dget, h1, h2, ih, h]
    · by_cases h2 : k1 = k2
      · have h3 : ¬ k2 = k := fun hh => h hh.symm
        simp [List.filter_cons, dget, h1, h2, h3, ih]
      · simp [List.filter_cons, dget, h1, h2, ih]

theorem dget_dinsert {κ ν : Type} [DecidableEq κ] (m : List (κ × ν)) (k k2 : κ)
    (v : ν) :
    dget (dinsert m k v) k2 = if k = k2 then some v else dget m k2 := by
  by_cases h : k = k2
  · simp [dinsert, dget, h]
  · simp [dinsert, dget, h, dget_filter_ne m k k2 h]

theorem dget_mem {κ ν : Type} [DecidableEq κ] (m : List (κ × ν)) (k : κ) (v : ν)
    (h : dget m k = some v) : (k, v) ∈ m := by
  induction m with
  | nil => simp [dget] at h
  | cons p rest ih =>
    obtain ⟨k1, v1⟩ := p
    by_cases h1 : k1 = k
    · subst h1
      simp [dget] at h
      simp [h]
    · simp [dget, h1] at h
      exact List.mem_cons_of_mem _ (ih h)

/-! Facts about invalidation and the commit step. -/

theorem invalidate_iter_sequence (e : RulesForRoom) (n : Nat) :
    (invalidate_all^[n] e).sequence = e.sequence + n := by
  induction n with
  | zero => simp
  | succ n ih =>
    rw [Function.iterate_succ_apply']
    simp [invalidate_all, ih]
    omega

theorem update_cache_sequence (e : RulesForRoom) (s : Nat)
    (members : List (EventId × UserId × String))
    (rules : List (UserId × RuleSet)) (sg : Option Nat) :
    (update_cache e s members rules sg).sequence = e.sequence := by
  unfold update_cache
  split <;> rfl

theorem update_cache_of_ne (e : RulesForRoom) (s : Nat)
    (members : List (EventId × UserId × String))
    (rules : List (UserId × RuleSet)) (sg : Option Nat) (h : ¬ s = e.sequence) :
    update_cache e s members rules sg = e := by
  unfold update_cache
  exact if_neg h

theorem dget_dupdate_isSome {κ ν : Type} [DecidableEq κ] (m o : List (κ × ν))
    (k : κ) (h : (dget m k).isSome = true) :
    (dget (dupdate m o) k).isSome = true := by
  rw [dget_dupdate]
  cases ho : dget o k
  · simpa [oor, ho] using h
  · simp [oor, ho]

/-! Shape lemmas for the three paths of `get_rules` and for the commit. -/

theorem update_cache_commit (e : RulesForRoom)
    (members : List (EventId × UserId × String))
    (rules : List (UserId × RuleSet)) (sg : Option Nat) :
    update_cache e e.sequence members rules sg
      = { e with
          memberMap := dupdate e.memberMap members,
          rulesByUser := dupdate e.rulesByUser rules,
          stateGroup := .ctx sg } := by
  unfold update_cache
  rw [if_pos rfl]

theorem gmei_eq (env : Env) (e : RulesForRoom) (mids : List (UserId × EventId))
    (sg : Option Nat) (nInv : Nat) :
    get_rules_for_member_event_ids env e mids sg nInv
      = (update_cache (invalidate_all^[nInv] e) e.sequence
           (resolved_members env (mids.map Prod.snd))
           ((fetch_user_ids env (resolved_members env (mids.map Prod.snd))).filterMap
             (fun u => (env.pushRulesOf u).map (fun r => (u, r)))) sg,
         (fetch_user_ids env (resolved_members env (mids.map Prod.snd))).filterMap
           (fun u => (env.pushRulesOf u).map (fun r => (u, r)))) := rfl

theorem get_rules_fast (env : Env) (e : RulesForRoom) (ctx : Context) (nInv : Nat)
    (hf : fastPathHit e ctx = true) :
    get_rules env e ctx nInv = ⟨e, e.rulesByUser, 0⟩ := by
  unfold get_rules
  rw [hf]
  rfl

theorem get_rules_no_missing (env : Env) (e : RulesForRoom) (ctx : Context)
    (nInv : Nat) (hf : fastPathHit e ctx = false)
    (hm : (scanState env e ctx).2 = []) :
    get_rules env e ctx nInv = ⟨e, (scanState env e ctx).1, 0⟩ := by
  unfold get_rules
  rw [hf]
  simp [hm]

theorem get_rules_missing (env : Env) (e : RulesForRoom) (ctx : Context)
    (nInv : Nat) (hf : fastPathHit e ctx = false)
    (hm : (scanState env e ctx).2 ≠ []) :
    get_rules env e ctx nInv =
      ⟨(get_rules_for_member_event_ids env e (scanState env e ctx).2
          ctx.state_group nInv).1,
       dupdate (scanState env e ctx).1
         (get_rules_for_member_event_ids env e (scanState env e ctx).2
            ctx.state_group nInv).2,
       4⟩ := by
  unfold get_rules
  rw [hf]
  simp [hm]

/-- In the partitioning loop, the first accumulator component only ever
receives bindings copied out of the entry's `rulesByUser`. -/
theorem scan_ret_from_cache (env : Env) (e : RulesForRoom)
    (l : List ((String × String) × EventId)) :
    ∀ (acc : List (UserId × RuleSet) × List (UserId × EventId)),
      (∀ u rs, dget acc.1 u = some rs → dget e.rulesByUser u = some rs) →
      ∀ u rs, dget (l.foldl (scanStep env e) acc).1 u = some rs →
        dget e.rulesByUser u = some rs := by
  induction l with
  | nil => exact fun acc hacc u rs h => hacc u rs h
  | cons kv rest ih =>
    intro acc hacc u rs h
    refine ih (scanStep env e acc kv) ?_ u rs h
    intro u2 rs2 h2
    revert h2
    unfold scanStep
    rcases hmm : dget e.memberMap kv.2 with _ | ⟨user_id, state⟩
    · intro h2
      have hfst : (if kv.1.1 ≠ memberEventType then acc
          else if ¬ env.is_mine_id kv.1.2 then acc
          else if env.appServiceInterested kv.1.2 then acc
          else (acc.1, dinsert acc.2 kv.1.2 kv.2)).1 = acc.1 := by
        split
        · rfl
        · split
          · rfl
          · split
            · rfl
            · rfl
      rw [hfst] at h2
      exact hacc u2 rs2 h2
    · dsimp only
      by_cases hstate : state = membershipJoin
      · rw [if_pos hstate]
        rcases hru : dget e.rulesByUser user_id with _ | rules
        · exact fun h2 => hacc u2 rs2 h2
        · dsimp only
          by_cases hne : rules ≠ []
          · rw [if_pos hne]
            intro h2
            dsimp only at h2
            rw [dget_dinsert] at h2
            by_cases heq : user_id = u2
            · rw [if_pos heq] at h2
              rw [← heq, hru]
              exact h2 ▸ rfl
            · rw [if_neg heq] at h2
              exact hacc u2 rs2 h2
          · rw [if_neg hne]
            exact fun h2 => hacc u2 rs2 h2
      · rw [if_neg hstate]
        exact fun h2 => hacc u2 rs2 h2

/-- With an empty `memberMap` the partitioning loop reuses nothing. -/
theorem scan_ret_nil_of_empty_memberMap (env : Env) (e : RulesForRoom)
    (hmm : e.memberMap = []) (l : List ((String × String) × EventId)) :
    ∀ acc, (l.foldl (scanStep env e) acc).1 = acc.1 := by
  induction l with
  | nil => exact fun _ => rfl
  | cons kv rest ih =>
    intro acc
    rw [List.foldl_cons, ih]
    unfold scanStep
    rw [hmm]
    show (if kv.1.1 ≠ memberEventType then acc
        else if ¬ env.is_mine_id kv.1.2 then acc
        else if env.appServiceInterested kv.1.2 then acc
        else (acc.1, dinsert acc.2 kv.1.2 kv.2)).1 = acc.1
    split
    · rfl
    · split
      · rfl
      · split
        · rfl
        · rfl

theorem oor_eq_some_cases {α : Type} (a b : Option α) (v : α)
    (h : oor a b = some v) : a = some v ∨ (a = none ∧ b = some v) := by
  cases a
  · exact Or.inr ⟨rfl, h⟩
  · exact Or.inl h

/-! Lifetime lemmas: the sequence only grows, and the entry never holds a
sentinel token younger than its sequence. -/

theorem seq_le_applyOp (e : RulesForRoom) (op : CacheOp) :
    e.sequence ≤ (applyOp e op).sequence := by
  cases op with
  | inv =>
    simp [applyOp, invalidate_all]
  | refresh env ctx n =>
    show e.sequence ≤ (get_rules env e ctx n).entry.sequence
    by_cases hf : fastPathHit e ctx = true
    · rw [get_rules_fast env e ctx n hf]
    · have hf2 : fastPathHit e ctx = false := by
        revert hf
        cases fastPathHit e ctx <;> simp
      by_cases hm : (scanState env e ctx).2 = []
      · rw [get_rules_no_missing env e ctx n hf2 hm]
      · rw [get_rules_missing env e ctx n hf2 hm, gmei_eq]
        show e.sequence ≤ (update_cache _ _ _ _ _).sequence
        rw [update_cache_sequence, invalidate_iter_sequence]
        omega

theorem seq_le_foldl (ops : List CacheOp) (e : RulesForRoom) :
    e.sequence ≤ (ops.foldl applyOp e).sequence := by
  induction ops generalizing e with
  | nil => exact Nat.le_refl _
  | cons op rest ih =>
    exact Nat.le_trans (seq_le_applyOp e op) (ih (applyOp e op))

theorem runOps_take_seq_le (ops : List CacheOp) (k : Nat) :
    (runOps (ops.take k)).sequence ≤ (runOps ops).sequence := by
  simp only [runOps]
  conv_rhs => rw [← List.take_append_drop k ops]
  rw [List.foldl_append]
  exact seq_le_foldl _ _

theorem tokIdx_le_iterate (e : RulesForRoom)
    (h : tokIdx e.stateGroup ≤ e.sequence) (n : Nat) :
    tokIdx ((invalidate_all^[n]) e).stateGroup ≤ ((invalidate_all^[n]) e).sequence := by
  induction n with
  | zero => simpa using h
  | succ n ih =>
    rw [Function.iterate_succ_apply']
    simp [invalidate_all, tokIdx]

theorem tokIdx_le_applyOp (e : RulesForRoom)
    (h : tokIdx e.stateGroup ≤ e.sequence) (op : CacheOp) :
    tokIdx (applyOp e op).stateGroup ≤ (applyOp e op).sequence := by
  cases op with
  | inv =>
    simp [applyOp, invalidate_all, tokIdx]
  | refresh env ctx n =>
    show tokIdx (get_rules env e ctx n).entry.stateGroup
      ≤ (get_rules env e ctx n).entry.sequence
    by_cases hf : fastPathHit e ctx = true
    · rw [get_rules_fast env e ctx n hf]
      exact h
    · have hf2 : fastPathHit e ctx = false := by
        revert hf
        cases fastPathHit e ctx <;> simp
      by_cases hm : (scanState env e ctx).2 = []
      · rw [get_rules_no_missing env e ctx n hf2 hm]
        exact h
      · rw [get_rules_missing env e ctx n hf2 hm, gmei_eq]
        show tokIdx (update_cache _ _ _ _ _).stateGroup
          ≤ (update_cache _ _ _ _ _).sequence
        unfold update_cache
        split
        · simp [tokIdx]
        · exact tokIdx_le_iterate e h n

theorem tokIdx_foldl (ops : List CacheOp) (e : RulesForRoom)
    (h : tokIdx e.stateGroup ≤ e.sequence) :
    tokIdx ((ops.foldl applyOp e).stateGroup) ≤ (ops.foldl applyOp e).sequence := by
  induction ops generalizing e with
  | nil => exact h
  | cons op rest ih =>
    exact ih (applyOp e op) (tokIdx_le_applyOp e h op)

theorem tokIdx_runOps (ops : List CacheOp) :
    tokIdx (runOps ops).stateGroup ≤ (runOps ops).sequence :=
  tokIdx_foldl ops initRulesForRoom (Nat.le_refl 0)

/-! The claims. -/

/-- C1: for a refresh of the per-room rule cache, when the sequence captured
before the external lookups no longer equals the sequence at commit time
(after `nInv > 0` interleaved `invalidate_all` calls), the commit step leaves
`memberMap`, `rulesByUser` and the state token of the entry exactly as the
interleaved invalidations left them, yet the refresh still returns the same
computed user-to-ruleset mapping it would have returned undisturbed; and the
entry can differ from its commit-time state only when the captured sequence
still equals the commit-time sequence. -/
theorem c1_stale_commit_discarded_but_returned (env : Env) (e : RulesForRoom)
    (mids : List (UserId × EventId)) (sg : Option Nat) (nInv : Nat) :
    ((invalidate_all^[nInv] e).sequence ≠ e.sequence →
      (get_rules_for_member_event_ids env e mids sg nInv).1.memberMap
          = (invalidate_all^[nInv] e).memberMap ∧
      (get_rules_for_member_event_ids env e mids sg nInv).1.rulesByUser
          = (invalidate_all^[nInv] e).rulesByUser ∧
      (get_rules_for_member_event_ids env e mids sg nInv).1.stateGroup
          = (invalidate_all^[nInv] e).stateGroup ∧
      (get_rules_for_member_event_ids env e mids sg nInv).2
          = (get_rules_for_member_event_ids env e mids sg 0).2) ∧
    ((get_rules_for_member_event_ids env e mids sg nInv).1 ≠ invalidate_all^[nInv] e →
      (invalidate_all^[nInv] e).sequence = e.sequence) := by
  have hfst : (get_rules_for_member_event_ids env e mids sg nInv).1
      = update_cache (invalidate_all^[nInv] e) e.sequence
          (resolved_members env (mids.map Prod.snd))
          ((fetch_user_ids env (resolved_members env (mids.map Prod.snd))).filterMap
            (fun u => (env.pushRulesOf u).map (fun r => (u, r)))) sg := rfl
  have hsnd : (get_rules_for_member_event_ids env e mids sg nInv).2
      = (get_rules_for_member_event_ids env e mids sg 0).2 := rfl
  constructor
  · intro h
    have hne : ¬ e.sequence = (invalidate_all^[nInv] e).sequence := fun hh => h hh.symm
    rw [hfst, update_cache_of_ne _ _ _ _ _ hne]
    exact ⟨rfl, rfl, rfl, hsnd⟩
  · intro h
    by_contra hne
    apply h
    have hne2 : ¬ e.sequence = (invalidate_all^[nInv] e).sequence := fun hh => hne hh.symm
    rw [hfst, update_cache_of_ne _ _ _ _ _ hne2]

/-- C1 witness: with one interleaved invalidation the commit writes nothing
and the computed mapping is still returned. -/
theorem c1_stale_commit_witness :
    (get_rules_for_member_event_ids env2 e2stale [("@v:hs", "e1")] (some 1) 1).1.memberMap
        = (invalidate_all^[1] e2stale).memberMap ∧
    (get_rules_for_member_event_ids env2 e2stale [("@v:hs", "e1")] (some 1) 1).1.rulesByUser
        = (invalidate_all^[1] e2stale).rulesByUser ∧
    (get_rules_for_member_event_ids env2 e2stale [("@v:hs", "e1")] (some 1) 1).1.stateGroup
        = (invalidate_all^[1] e2stale).stateGroup ∧
    (get_rules_for_member_event_ids env2 e2stale [("@v:hs", "e1")] (some 1) 1).2
        = (get_rules_for_member_event_ids env2 e2stale [("@v:hs", "e1")] (some 1) 0).2 :=
  (c1_stale_commit_discarded_but_returned env2 e2stale [("@v:hs", "e1")] (some 1) 1).1
    (by decide)

/-- C2 counterexample: the two successive `get_rules` calls with the same
state token do NOT return identical mappings: the entry `e2stale` still
caches rules for `@w:hs`, absent from the first (slow-path) result but
present in the second (fast-path) result, which hands out the whole merged
cache. -/
theorem c2_counterexample :
    dget (get_rules env2 e2stale ctx2 0).rules "@w:hs" = none ∧
    dget (get_rules env2 (get_rules env2 e2stale ctx2 0).entry ctx2 0).rules "@w:hs"
      = some [ruleNotify] := by
  decide

/-- C2 amended: with a truthy shared state token and no interleaved
invalidation, the second `get_rules` call performs no suspending store
lookups and returns a mapping that agrees with the first call's result on
every user present in it (identical when the first call hit the fast path;
possibly strictly larger, handed out of the merged cache, after a slow-path
first call that resolved missing members and therefore committed, making the
second call hit the fast path). -/
theorem c2_second_refresh_from_cache (env : Env) (e : RulesForRoom)
    (ctx : Context) (ht : sgTruthy ctx.state_group = true) :
    (get_rules env (get_rules env e ctx 0).entry ctx 0).yieldedLookups = 0 ∧
    (∀ u rs, dget (get_rules env e ctx 0).rules u = some rs →
      dget (get_rules env (get_rules env e ctx 0).entry ctx 0).rules u = some rs) ∧
    (fastPathHit e ctx = true →
      (get_rules env e ctx 0).entry = e ∧
      (get_rules env e ctx 0).rules = e.rulesByUser ∧
      (get_rules env (get_rules env e ctx 0).entry ctx 0).rules
        = (get_rules env e ctx 0).rules) ∧
    ((scanState env e ctx).2 ≠ [] →
      fastPathHit (get_rules env e ctx 0).entry ctx = true) := by
  cases hb : fastPathHit e ctx with
  | true =>
    have h1 : get_rules env e ctx 0 = ⟨e, e.rulesByUser, 0⟩ :=
      get_rules_fast env e ctx 0 hb
    rw [h1]
    dsimp only
    rw [h1]
    exact ⟨rfl, fun u rs h => h, fun _ => ⟨rfl, rfl, rfl⟩, fun _ => hb⟩
  | false =>
    by_cases hm : (scanState env e ctx).2 = []
    · have h1 : get_rules env e ctx 0 = ⟨e, (scanState env e ctx).1, 0⟩ :=
        get_rules_no_missing env e ctx 0 hb hm
      refine ⟨?_, ?_, ?_, ?_⟩
      · rw [h1]
        dsimp only
        rw [h1]
      · intro u rs h
        rw [h1]
        dsimp only
        rw [h1]
        rw [h1] at h
        exact h
      · intro hcontr
        exact absurd hcontr (by decide)
      · intro hcontr
        exact absurd hm hcontr
    · have h1 := get_rules_missing env e ctx 0 hb hm
      rw [gmei_eq, Function.iterate_zero_apply, update_cache_commit] at h1
      have hfp : fastPathHit (get_rules env e ctx 0).entry ctx = true := by
        rw [h1]
        dsimp only
        simp [fastPathHit, ht]
      have h2 := get_rules_fast env (get_rules env e ctx 0).entry ctx 0 hfp
      refine ⟨?_, ?_, ?_, ?_⟩
      · rw [h2]
      · intro u rs h
        rw [h1] at h
        dsimp only at h
        rw [dget_dupdate] at h
        rw [h2]
        dsimp only
        rw [h1]
        dsimp only
        rw [dget_dupdate]
        rcases oor_eq_some_cases _ _ _ h with hc | ⟨hn, hc⟩
        · rw [hc]
          rfl
        · rw [hn]
          exact scan_ret_from_cache env e ctx.current_state_ids ([], [])
            (fun u3 rs3 h3 => by simp [dget] at h3) u rs hc
      · intro hcontr
        exact absurd hcontr (by decide)
      · intro _
        exact hfp

/-- C2 witness: the amended behaviour at the concrete stale-cached-user
input, where the second result strictly extends the first. -/
theorem c2_second_refresh_witness :
    (get_rules env2 (get_rules env2 e2stale ctx2 0).entry ctx2 0).yieldedLookups = 0 ∧
    (∀ u rs, dget (get_rules env2 e2stale ctx2 0).rules u = some rs →
      dget (get_rules env2 (get_rules env2 e2stale ctx2 0).entry ctx2 0).rules u = some rs) ∧
    (fastPathHit e2stale ctx2 = true →
      (get_rules env2 e2stale ctx2 0).entry = e2stale ∧
      (get_rules env2 e2stale ctx2 0).rules = e2stale.rulesByUser ∧
      (get_rules env2 (get_rules env2 e2stale ctx2 0).entry ctx2 0).rules
        = (get_rules env2 e2stale ctx2 0).rules) ∧
    ((scanState env2 e2stale ctx2).2 ≠ [] →
      fastPathHit (get_rules env2 e2stale ctx2 0).entry ctx2 = true) :=
  c2_second_refresh_from_cache env2 e2stale ctx2 rfl

/-- C3 counterexample: on an empty partition (no missing member event ids)
the slow path of `get_rules` does NOT settle the commit step: the entry keeps
its sentinel state token instead of taking the context's token, so the next
refresh with the same token does not hit the fast path. -/
theorem c3_counterexample :
    (scanState env0 initRulesForRoom ⟨some 1, []⟩).2 = [] ∧
    (get_rules env0 initRulesForRoom ⟨some 1, []⟩ 0).entry.stateGroup
      = EToken.sentinel 0 ∧
    EToken.sentinel 0 ≠ EToken.ctx (some 1) ∧
    fastPathHit (get_rules env0 initRulesForRoom ⟨some 1, []⟩ 0).entry
      ⟨some 1, []⟩ = false := by
  decide

/-- C3 amended: in the slow path, when partitioning yields no missing member
event ids, the call returns exactly the rulesets reused from the cache and
performs no suspending lookups, but it does NOT perform the commit step: the
entry is left entirely unchanged, so its state token does not become the
context's and the next refresh with the same token again misses the fast
path. -/
theorem c3_no_missing_skips_commit (env : Env) (e : RulesForRoom) (ctx : Context)
    (nInv : Nat) (hf : fastPathHit e ctx = false)
    (hm : (scanState env e ctx).2 = []) :
    get_rules env e ctx nInv = ⟨e, (scanState env e ctx).1, 0⟩ ∧
    fastPathHit (get_rules env e ctx nInv).entry ctx = false := by
  have h1 : get_rules env e ctx nInv = ⟨e, (scanState env e ctx).1, 0⟩ := by
    unfold get_rules
    rw [hf]
    simp [hm]
  exact ⟨h1, by rw [h1]; exact hf⟩

/-- C3 witness: the amended behaviour at the concrete empty-state input. -/
theorem c3_no_missing_skips_commit_witness :
    get_rules env0 initRulesForRoom ⟨some 1, []⟩ 0
        = ⟨initRulesForRoom, (scanState env0 initRulesForRoom ⟨some 1, []⟩).1, 0⟩ ∧
    fastPathHit (get_rules env0 initRulesForRoom ⟨some 1, []⟩ 0).entry
        ⟨some 1, []⟩ = false :=
  c3_no_missing_skips_commit env0 initRulesForRoom ⟨some 1, []⟩ 0 rfl rfl

/-- C4 counterexample: a batch-resolved member `@r:hs` with a read receipt
and NO pusher is nevertheless added to the fetch set and their rules appear
in the mapping computed by `_get_rules_for_member_event_ids`, so a read
receipt alone does qualify a resolved member without a pusher. -/
theorem c4_counterexample :
    env4.hasPusher "@r:hs" = false ∧
    "@r:hs" ∈ fetch_user_ids env4 (resolved_members env4 ["e1"]) ∧
    dget (get_rules_for_member_event_ids env4 initRulesForRoom
        [("@r:hs", "e1")] (some 1) 0).2 "@r:hs" = some [ruleNotify] := by
  decide

/-- C4 amended: the set of users whose rules are fetched is exactly the
batch-resolved member users with a registered pusher, unioned with the
batch-resolved member users who have a read receipt in the room — the
receipt part requires only membership among the resolved rows, not a pusher;
and every user in the returned mapping comes from that fetch set with their
stored ruleset. -/
theorem c4_fetch_set_characterization :
    (∀ (env : Env) (members : List (EventId × UserId × String)) (u : UserId),
      u ∈ fetch_user_ids env members ↔
        ((u ∈ members.map (fun m => m.2.1) ∧ env.hasPusher u = true) ∨
         (u ∈ members.map (fun m => m.2.1) ∧ u ∈ env.usersWithReceipts))) ∧
    (∀ (env : Env) (e : RulesForRoom) (mids : List (UserId × EventId))
        (sg : Option Nat) (nInv : Nat) (u : UserId) (rs : RuleSet),
      dget (get_rules_for_member_event_ids env e mids sg nInv).2 u = some rs →
        u ∈ fetch_user_ids env (resolved_members env (mids.map Prod.snd)) ∧
        env.pushRulesOf u = some rs) := by
  constructor
  · intro env members u
    simp only [fetch_user_ids, interested_user_ids_of]
    simp only [List.mem_dedup, List.mem_append, List.mem_filter, List.mem_map,
      decide_eq_true_iff]
    constructor
    · rintro (⟨p, ⟨⟨a, ha, hap⟩, hp2⟩, hpu⟩ | ⟨hrec, hint⟩)
      · subst hap
        subst hpu
        exact Or.inl ⟨ha, hp2⟩
      · exact Or.inr ⟨hint, hrec⟩
    · rintro (⟨hmem, hpush⟩ | ⟨hmem, hrec⟩)
      · exact Or.inl ⟨(u, env.hasPusher u), ⟨⟨u, hmem, rfl⟩, hpush⟩, rfl⟩
      · exact Or.inr ⟨hrec, hmem⟩
  · intro env e mids sg nInv u rs h
    have hmem : (u, rs) ∈
        (fetch_user_ids env (resolved_members env (mids.map Prod.snd))).filterMap
          (fun u => (env.pushRulesOf u).map (fun r => (u, r))) :=
      dget_mem _ _ _ h
    rcases List.mem_filterMap.mp hmem with ⟨a, ha, hfa⟩
    rcases Option.map_eq_some'.mp hfa with ⟨r, hr, heq⟩
    have hau : a = u := congrArg Prod.fst heq
    have hru : r = rs := congrArg Prod.snd heq
    subst hau
    subst hru
    exact ⟨ha, hr⟩

/-- C9: a commit through `update_cache` only adds or overwrites bindings:
every user present in `rulesByUser` and every event id present in
`memberMap` before the commit is still present after it, and a `get_rules`
call with no interleaved invalidation likewise never removes a user from the
entry. -/
theorem c9_merge_monotone :
    (∀ (e : RulesForRoom) (seq : Nat) (members : List (EventId × UserId × String))
        (rules : List (UserId × RuleSet)) (sg : Option Nat) (u : UserId),
      (dget e.rulesByUser u).isSome = true →
        (dget (update_cache e seq members rules sg).rulesByUser u).isSome = true) ∧
    (∀ (e : RulesForRoom) (seq : Nat) (members : List (EventId × UserId × String))
        (rules : List (UserId × RuleSet)) (sg : Option Nat) (eid : EventId),
      (dget e.memberMap eid).isSome = true →
        (dget (update_cache e seq members rules sg).memberMap eid).isSome = true) ∧
    (∀ (env : Env) (e : RulesForRoom) (ctx : Context) (u : UserId),
      (dget e.rulesByUser u).isSome = true →
        (dget (get_rules env e ctx 0).entry.rulesByUser u).isSome = true) := by
  refine ⟨?_, ?_, ?_⟩
  · intro e seq members rules sg u h
    unfold update_cache
    split
    · exact dget_dupdate_isSome _ _ _ h
    · exact h
  · intro e seq members rules sg eid h
    unfold update_cache
    split
    · exact dget_dupdate_isSome _ _ _ h
    · exact h
  · intro env e ctx u h
    by_cases hf : fastPathHit e ctx
    · simpa [get_rules, hf] using h
    · by_cases hm : (scanState env e ctx).2 = []
      · simpa [get_rules, hf, hm] using h
      · have hentry : (get_rules env e ctx 0).entry
            = update_cache e e.sequence
                (resolved_members env ((scanState env e ctx).2.map Prod.snd))
                ((fetch_user_ids env
                    (resolved_members env ((scanState env e ctx).2.map Prod.snd))).filterMap
                  (fun u => (env.pushRulesOf u).map (fun r => (u, r))))
                ctx.state_group := by
          simp [get_rules, hf, hm, get_rules_for_member_event_ids]
        rw [hentry]
        unfold update_cache
        split
        · exact dget_dupdate_isSome _ _ _ h
        · exact h

/-- C5: after `invalidate_all` the sequence is exactly one greater, both
maps are empty, and the state token is a fresh sentinel: unequal to every
stored context token, unequal to the token held after any prefix of the
entry's operation history, so the next refresh can never hit the fast path
and its partitioning reuses nothing from the cache (full resolution). -/
theorem c5_invalidate_resets_fully (ops : List CacheOp) :
    (invalidate_all (runOps ops)).sequence = (runOps ops).sequence + 1 ∧
    (invalidate_all (runOps ops)).memberMap = [] ∧
    (invalidate_all (runOps ops)).rulesByUser = [] ∧
    (∀ g, (invalidate_all (runOps ops)).stateGroup ≠ EToken.ctx g) ∧
    (∀ k, (invalidate_all (runOps ops)).stateGroup
      ≠ (runOps (ops.take k)).stateGroup) ∧
    (∀ ctx, fastPathHit (invalidate_all (runOps ops)) ctx = false) ∧
    (∀ env ctx, (scanState env (invalidate_all (runOps ops)) ctx).1 = []) := by
  refine ⟨rfl, rfl, rfl, ?_, ?_, ?_, ?_⟩
  · intro g h
    cases h
  · intro k h
    have h1 := tokIdx_runOps (ops.take k)
    have h2 := runOps_take_seq_le ops k
    rw [← h] at h1
    simp only [invalidate_all, tokIdx] at h1
    omega
  · intro ctx
    simp [fastPathHit, invalidate_all]
  · intro env ctx
    exact scan_ret_nil_of_empty_memberMap env _ rfl ctx.current_state_ids ([], [])

/-- C6: explicitly disabled rules are skipped outright; the first
non-disabled rule whose full condition chain matches determines the result —
later rules are never consulted — and its actions with `dont_notify` removed
become the user's entry exactly when they are nonempty and contain `notify`;
on the concrete ruleset [R1 non-matching, R2 matching with actions [notify],
R3 matching with actions [highlight]] the full evaluation yields exactly
[notify] for the user. -/
theorem c6_first_match_wins :
    (∀ (ev : Cond → UserId → Option String → Bool) (r : Rule) (rest : List Rule)
        (uid : UserId) (dn : Option String) (cache : List (String × Bool)),
      r.enabled = some false →
        run_user_rules ev (r :: rest) uid dn cache
          = run_user_rules ev rest uid dn cache) ∧
    (∀ (ev : Cond → UserId → Option String → Bool) (r : Rule) (rest : List Rule)
        (uid : UserId) (dn : Option String) (cache : List (String × Bool)),
      r.enabled ≠ some false →
      (condition_checker ev r.conditions uid dn cache).1 = true →
        (run_user_rules ev (r :: rest) uid dn cache).1
          = (if r.actions.filter (fun a => decide (a ≠ dontNotifyAction)) ≠ []
                ∧ (r.actions.filter
                    (fun a => decide (a ≠ dontNotifyAction))).contains notifyAction
             then some (r.actions.filter (fun a => decide (a ≠ dontNotifyAction)))
             else none)) ∧
    (action_for_event_by_user env0 evScenario (fun _ => none) (fun _ => true)
        e6 event6 ctx6 0).2 = [("@bob:hs", [notifyAction])] := by
  refine ⟨?_, ?_, ?_⟩
  · intro ev r rest uid dn cache h
    simp only [run_user_rules]
    rw [if_pos h]
  · intro ev r rest uid dn cache h hc
    simp only [run_user_rules]
    rw [if_neg h]
    rw [hc]
    rfl
  · decide

/-- In the per-user loop, a user who is skipped by every iteration (the
event's sender, or a user the visibility filter hid) never gains an entry. -/
theorem action_loop_absent (ev : Cond → UserId → Option String → Bool)
    (room_members : UserId → Option Profile) (visible : UserId → Bool)
    (event : Event) (entries : List (UserId × RuleSet)) :
    ∀ (acc : List (UserId × List String)) (cache : List (String × Bool))
      (u : UserId),
      (u = event.sender ∨ visible u = false) →
      dget acc u = none →
      dget (action_loop ev room_members visible event entries acc cache) u = none := by
  induction entries with
  | nil => exact fun _ _ _ _ hacc => hacc
  | cons p rest ih =>
    intro acc cache u hu hacc
    obtain ⟨uid, rules⟩ := p
    unfold action_loop
    dsimp only
    cases hv : visible uid with
    | false =>
      rw [if_pos (by simp [hv])]
      exact ih acc cache u hu hacc
    | true =>
      rw [if_neg (by simp [hv])]
      by_cases hs : event.sender = uid
      · rw [if_pos hs]
        exact ih acc cache u hu hacc
      · rw [if_neg hs]
        have hne : ¬ uid = u := by
          rcases hu with h1 | h1
          · intro he
            exact hs (he.trans h1).symm
          · intro he
            rw [he, h1] at hv
            cases hv
        refine ih _ _ u hu ?_
        cases hr : (run_user_rules ev rules uid
            (resolveDisplayName room_members event uid) cache).1 with
        | none =>
          simp only [hr]
          exact hacc
        | some actions =>
          simp only [hr]
          rw [dget_dinsert, if_neg hne]
          exact hacc

/-- C7: the sender of the event never appears in the mapping produced by
`action_for_event_by_user`, and neither does any user for whom the
visibility filter returned no visible events. -/
theorem c7_sender_and_hidden_excluded (env : Env)
    (ev : Cond → UserId → Option String → Bool)
    (room_members : UserId → Option Profile) (visible : UserId → Bool)
    (e : RulesForRoom) (event : Event) (ctx : Context) (nInv : Nat) :
    dget (action_for_event_by_user env ev room_members visible e event ctx nInv).2
        event.sender = none ∧
    (∀ u, visible u = false →
      dget (action_for_event_by_user env ev room_members visible e event ctx nInv).2
        u = none) := by
  constructor
  · exact action_loop_absent ev room_members visible event
      (get_rules_for_event env e event ctx nInv).2 [] [] event.sender
      (Or.inl rfl) rfl
  · intro u hu
    exact action_loop_absent ev room_members visible event
      (get_rules_for_event env e event ctx nInv).2 [] [] u (Or.inr hu) rfl

/-- C8: on an invite membership event naming a local, pusher-owning user who
is absent from the refreshed mapping, the special case fetches that user's
ruleset into the mapping returned for this evaluation only: the entry that
`get_rules` left behind is returned untouched (nothing is written into the
cache), every other user's binding is unchanged, and the invitee's binding
is the directly fetched single-user ruleset. -/
theorem c8_invite_rules_local_only (env : Env) (e : RulesForRoom) (event : Event)
    (ctx : Context) (nInv : Nat)
    (ht : event.type = memberEventType)
    (hm : event.content_membership = some membershipInvite)
    (hk : event.state_key ≠ "")
    (hmine : env.is_mine_id event.state_key = true)
    (hp : env.hasPusher event.state_key = true)
    (_habs : dget (get_rules env e ctx nInv).rules event.state_key = none) :
    (get_rules_for_event env e event ctx nInv).1 = (get_rules env e ctx nInv).entry ∧
    dget (get_rules_for_event env e event ctx nInv).2 event.state_key
      = some (env.push_rules_for_user event.state_key) ∧
    (∀ u, ¬ u = event.state_key →
      dget (get_rules_for_event env e event ctx nInv).2 u
        = dget (get_rules env e ctx nInv).rules u) := by
  have hdef : get_rules_for_event env e event ctx nInv
      = ((get_rules env e ctx nInv).entry,
         dinsert (get_rules env e ctx nInv).rules event.state_key
           (env.push_rules_for_user event.state_key)) := by
    unfold get_rules_for_event
    rw [if_pos ⟨ht, hm⟩, if_pos ⟨hk, hmine⟩, if_pos hp]
  rw [hdef]
  refine ⟨rfl, ?_, ?_⟩
  · dsimp only
    rw [dget_dinsert, if_pos rfl]
  · intro u hu
    dsimp only
    rw [dget_dinsert, if_neg (fun hh => hu hh.symm)]

/-- C8 witness: the invite scenario from `@a:hs` to `@d:hs`, whose result
carries the fetched ruleset for `@d:hs` while the cache entry is exactly the
one `get_rules` produced. -/
theorem c8_invite_rules_local_only_witness :
    (get_rules_for_event env8 initRulesForRoom event8 ctx8 0).1
        = (get_rules env8 initRulesForRoom ctx8 0).entry ∧
    dget (get_rules_for_event env8 initRulesForRoom event8 ctx8 0).2 event8.state_key
        = some (env8.push_rules_for_user event8.state_key) ∧
    (∀ u, ¬ u = event8.state_key →
      dget (get_rules_for_event env8 initRulesForRoom event8 ctx8 0).2 u
        = dget (get_rules env8 initRulesForRoom ctx8 0).rules u) :=
  c8_invite_rules_local_only env8 initRulesForRoom event8 ctx8 0 (by decide)
    (by decide) (by decide) (by decide) (by decide) (by decide)

/-- C10: a locally-homed user whose membership event in the supplied context
records a non-join state (here `leave`) but who has a pusher is
batch-resolved, has their rules fetched, appears in the returned mapping and
in the committed `rulesByUser`, and is then evaluated for notification on a
message event. -/
theorem c10_left_member_still_evaluated :
    dget (get_rules env10 initRulesForRoom ctx10 0).rules "@lu:hs"
        = some [ruleNotify] ∧
    dget (get_rules env10 initRulesForRoom ctx10 0).entry.rulesByUser "@lu:hs"
        = some [ruleNotify] ∧
    dget (get_rules env10 initRulesForRoom ctx10 0).entry.memberMap "em1"
        = some ("@lu:hs", "leave") ∧
    ("leave" : String) ≠ membershipJoin ∧
    env10.hasPusher "@lu:hs" = true ∧
    dget (action_for_event_by_user env10 (fun _ _ _ => true) (fun _ => none)
        (fun _ => true) initRulesForRoom event10 ctx10 0).2 "@lu:hs"
      = some [notifyAction] := by
  decide

end BulkPush
